import Mathlib

/-!
Shallow embedding of the core of the Dust audio-visualizer repository:
the spectrum extractor (compute_fft_bars), the triangulation-derived
neighbor lists, the spring relaxation engine (velocity mode of
projects/audio_visualizer/mesh_wave.py and viscosity mode of
visualization3d.py), and the hotspot field of visualization3d.py.

Machine floats are modelled as exact rationals (ℚ) or reals (ℝ); the
external numpy FFT is modelled as the exact discrete Fourier transform.
-/

namespace Dust

/-- `np.mean` of a list: sum divided by length.  Where numpy's NaN on an
empty input matters (slice means inside compute_fft_bars) the callers
guard with `Option`; elsewhere the list is provably non-empty. -/
def mean {α : Type} [DivisionRing α] (l : List α) : α := l.sum / (l.length : α)

/-- Python `min` over a non-empty list (`min(dists)` in visualization3d.py);
the `[]` case is junk (Python raises there). -/
def pyMin : List ℝ → ℝ
  | [] => 0
  | x :: xs => xs.foldl min x

/-- Boundary indices produced by `np.linspace(0, numBins, K + 1, dtype=int)`
in compute_fft_bars (src/audio_processing.py line 118): the exact value
`i * numBins / K` is cast to int, i.e. truncated, which on these
non-negative values is the floor, i.e. natural division. -/
def fftBins (numBins K i : ℕ) : ℕ := i * numBins / K

/-- `spectrum[a:b].mean()` on a list: numpy's mean of an empty slice is
NaN, modelled as `none`. -/
def npSliceMean {α : Type} [DivisionRing α] (l : List α) (a b : ℕ) : Option α :=
  let s := (l.drop a).take (b - a)
  if s.isEmpty then none else some (mean s)

/-- The grouping/averaging stage of compute_fft_bars
(src/audio_processing.py line 119). -/
def fftGroups {α : Type} [DivisionRing α] (spectrum : List α) (K : ℕ) : List (Option α) :=
  (List.range K).map fun i =>
    npSliceMean spectrum (fftBins spectrum.length K i) (fftBins spectrum.length K (i + 1))

/-- Magnitude of `np.fft.rfft` (external numpy library code): the first
`n / 2 + 1` coefficients of the exact discrete Fourier transform. -/
noncomputable def rfftMag (s : List ℝ) : List ℝ :=
  (List.range (s.length / 2 + 1)).map fun (k : ℕ) =>
    Complex.abs (∑ j ∈ Finset.range s.length,
      ((s.getD j 0 : ℝ) : ℂ) *
        Complex.exp (-(2 * Real.pi * Complex.I * (j : ℂ) * (k : ℂ)) / (s.length : ℂ)))

/-- compute_fft_bars (src/audio_processing.py lines 115-119):
magnitude spectrum of the real FFT, then grouped averages. -/
noncomputable def compute_fft_bars (samples : List ℝ) (K : ℕ) : List (Option ℝ) :=
  fftGroups (rfftMag samples) K

/-- One guarded append of the neighbor construction:
`if b not in neighbors[a]: neighbors[a].append(b)`
(visualization3d.py lines 58-59 / mesh_wave.py lines 53-54). -/
def addNeighbor (nb : ℕ → List ℕ) (a b : ℕ) : ℕ → List ℕ :=
  if b ∈ nb a then nb else Function.update nb a (nb a ++ [b])

/-- Both guarded appends for one directed triangle edge (a, b). -/
def addEdgePair (nb : ℕ → List ℕ) (a b : ℕ) : ℕ → List ℕ :=
  addNeighbor (addNeighbor nb a b) b a

/-- Process one triangle: the edge pairs (s0,s1), (s1,s2), (s2,s0) in
source order (visualization3d.py lines 55-61 / mesh_wave.py lines 50-56). -/
def addSimplex (nb : ℕ → List ℕ) (s : ℕ × ℕ × ℕ) : ℕ → List ℕ :=
  addEdgePair (addEdgePair (addEdgePair nb s.1 s.2.1) s.2.1 s.2.2) s.2.2 s.1

/-- Neighbor lists built from all triangles, starting from empty lists. -/
def buildNeighbors (simplices : List (ℕ × ℕ × ℕ)) : ℕ → List ℕ :=
  simplices.foldl addSimplex fun _ => []

/-- `np.mean([heights[j] for j in neighbors[i]]) if neighbors[i] else 0.0`
(mesh_wave.py line 127 / visualization3d.py line 179). -/
def neighborAvg (nb : ℕ → List ℕ) (h : ℕ → ℚ) (i : ℕ) : ℚ :=
  if nb i ≠ [] then mean ((nb i).map h) else 0

namespace MeshWave

/-- spring_k = 0.12 (mesh_wave.py line 92). -/
def spring_k : ℚ := 0.12

/-- neighbor_k = 0.18 (mesh_wave.py line 93). -/
def neighbor_k : ℚ := 0.18

/-- damp = 0.88 (mesh_wave.py line 94). -/
def damp : ℚ := 0.88

/-- force (mesh_wave.py line 128). -/
def force (nb : ℕ → List ℕ) (t h : ℕ → ℚ) (i : ℕ) : ℚ :=
  spring_k * (t i - h i) + neighbor_k * (neighborAvg nb h i - h i)

/-- The velocity write loop (mesh_wave.py lines 125-129), iterated in an
arbitrary index order: velocities[i] = damp * (velocities[i] + force). -/
def velPass (nb : ℕ → List ℕ) (t h v : ℕ → ℚ) (order : List ℕ) : ℕ → ℚ :=
  order.foldl (fun vc i => Function.update vc i (damp * (vc i + force nb t h i))) v

/-- Simultaneous (vectorised) form of the velocity pass on points 0..n-1. -/
def velStepSim (nb : ℕ → List ℕ) (n : ℕ) (t h v : ℕ → ℚ) : ℕ → ℚ :=
  fun i => if i < n then damp * (v i + force nb t h i) else v i

/-- One frame of the velocity-mode relaxation: the source iterates
i in range(n) writing velocities, and afterwards performs the vectorised
heights += velocities (mesh_wave.py lines 125-130). -/
def step (nb : ℕ → List ℕ) (n : ℕ) (t h v : ℕ → ℚ) : (ℕ → ℚ) × (ℕ → ℚ) :=
  let v2 := velPass nb t h v (List.range n)
  (fun i => if i < n then h i + v2 i else h i, v2)

/-- m frames of the velocity-mode relaxation from heights = velocities = 0
(mesh_wave.py lines 90-91) under a fixed per-point target. -/
def iter (nb : ℕ → List ℕ) (n : ℕ) (t : ℕ → ℚ) : ℕ → (ℕ → ℚ) × (ℕ → ℚ)
  | 0 => (fun _ => 0, fun _ => 0)
  | m + 1 =>
    let s := iter nb n t m
    step nb n t s.1 s.2

end MeshWave

namespace Viz3D

/-- spring_k = 0.18 (visualization3d.py line 125). -/
def spring_k : ℚ := 0.18

/-- neighbor_k = 0.14 (visualization3d.py line 126). -/
def neighbor_k : ℚ := 0.14

/-- visc = 0.82 (visualization3d.py line 127). -/
def visc : ℚ := 0.82

/-- The value written to new_heights[i] (visualization3d.py lines 180-184). -/
def newHeight (nb : ℕ → List ℕ) (t h : ℕ → ℚ) (i : ℕ) : ℚ :=
  visc * h i + spring_k * (t i - h i) + neighbor_k * (neighborAvg nb h i - h i)

/-- The per-point write loop into the zero-initialised new_heights buffer
(np.zeros_like), iterated in an arbitrary index order
(visualization3d.py lines 170-184). -/
def viscPass (nb : ℕ → List ℕ) (t h : ℕ → ℚ) (order : List ℕ) : ℕ → ℚ :=
  order.foldl (fun acc i => Function.update acc i (newHeight nb t h i)) fun _ => 0

/-- Simultaneous (vectorised) form of the viscosity update on 0..n-1. -/
def viscStepSim (nb : ℕ → List ℕ) (n : ℕ) (t h : ℕ → ℚ) : ℕ → ℚ :=
  fun i => if i < n then newHeight nb t h i else 0

end Viz3D

/-- A hotspot: 2D position plus 2D drift velocity (visualization3d.py
lines 106-111). -/
structure Hotspot where
  x : ℚ
  y : ℚ
  dx : ℚ
  dy : ℚ

/-- Hotspot.move (visualization3d.py lines 112-118) with the two random
jitters passed in explicitly; np.clip(v, -1, 1) is min 1 (max (-1) v),
and the reflection test abs(pos) >= 1 runs on the clamped position. -/
def Hotspot.move (h : Hotspot) (jx jy : ℚ) : Hotspot :=
  let x2 := min 1 (max (-1) (h.x + h.dx + jx))
  let y2 := min 1 (max (-1) (h.y + h.dy + jy))
  { x := x2, y := y2,
    dx := if 1 ≤ |x2| then -h.dx else h.dx,
    dy := if 1 ≤ |y2| then -h.dy else h.dy }

/-- avg_height = np.mean(np.abs(fft_bars)) (visualization3d.py line 159). -/
def avgEnergy (bars : List ℚ) : ℚ := mean (bars.map fun b => |b|)

/-- n_hot = int(np.clip(1 + avg_height * 16, 1, max_hotspots))
(visualization3d.py line 160); np.clip(v, 1, m) is min m (max 1 v) and the
clipped value is non-negative, so the int() truncation is the floor. -/
def nHot (avg : ℚ) (maxHotspots : ℕ) : ℤ :=
  ⌊min (maxHotspots : ℚ) (max 1 (1 + avg * 16))⌋

/-- np.hypot (external numpy library code). -/
noncomputable def npHypot (a b : ℝ) : ℝ := Real.sqrt (a ^ 2 + b ^ 2)

/-- min_dist = min(np.hypot(px - h.x, py - h.y) for h in hotspots)
(visualization3d.py lines 172-173). -/
noncomputable def minDistTo (p : ℝ × ℝ) (hs : List (ℝ × ℝ)) : ℝ :=
  pyMin (hs.map fun c => npHypot (p.1 - c.1) (p.2 - c.2))

/-- scaled_dist = min_dist * 0.5; rel = np.clip(1.0 - scaled_dist / 2.0, 0, 1)
(visualization3d.py lines 175-176). -/
noncomputable def hotspotRel (p : ℝ × ℝ) (hs : List (ℝ × ℝ)) : ℝ :=
  min 1 (max 0 (1 - minDistTo p hs * 0.5 / 2))

/-- bin_idx = int(rel * (len(fft_bars) - 1)) (visualization3d.py line 177):
int() truncation of a non-negative value, i.e. the floor. -/
noncomputable def hotspotBin (p : ℝ × ℝ) (hs : List (ℝ × ℝ)) (K : ℕ) : ℕ :=
  (⌊hotspotRel p hs * ((K : ℝ) - 1)⌋).toNat

/-- target = fft_bars[bin_idx] * 8.0 (visualization3d.py line 178). -/
noncomputable def hotspotTarget (p : ℝ × ℝ) (hs : List (ℝ × ℝ)) (bars : List ℝ) : ℝ :=
  bars.getD (hotspotBin p hs bars.length) 0 * 8

/-- Scalar specialisation of the velocity-mode update for the uniform
state in which every point carries the same height and velocity and the
constant target 1/2. -/
def scalarStep (p : ℚ × ℚ) : ℚ × ℚ :=
  let v2 := MeshWave.damp * (p.2 + MeshWave.spring_k * (1 / 2 - p.1))
  (p.1 + v2, v2)

/-- Iterated scalar update from (0, 0). -/
def scalarIter (m : ℕ) : ℚ × ℚ := scalarStep^[m] (0, 0)

/-- Quadratic Lyapunov certificate for the scalar recurrence, in the
shifted coordinates e = h - 1/2 (distance to the target):
V(h, v) = p e^2 + 2 q e v + r v^2 with p = 93/1000, q = 63/10000,
r = 484/625, chosen so that one scalar step contracts V by at least the
factor 9/10. -/
def lyapV (h v : ℚ) : ℚ :=
  (93 / 1000) * (h - 1 / 2) ^ 2 + 2 * (63 / 10000) * (h - 1 / 2) * v + (484 / 625) * v ^ 2

/-! ## Helper lemmas -/

theorem mean_const {l : List ℕ} {f : ℕ → ℚ} {c : ℚ} (hne : l ≠ []) (hc : ∀ x ∈ l, f x = c) :
    mean (l.map f) = c := by
  have hrep : l.map f = List.replicate (l.map f).length c := by
    rw [List.eq_replicate_iff]
    exact ⟨rfl, by simpa using hc⟩
  have hlen : ((l.map f).length : ℚ) ≠ 0 := by
    simpa using fun e => hne (List.eq_nil_of_length_eq_zero e)
  rw [mean, hrep]
  simp only [List.sum_replicate, List.length_replicate]
  rw [nsmul_eq_mul, mul_comm, mul_div_assoc, div_self (by simpa using hlen), mul_one]

theorem velPass_eq (nb : ℕ → List ℕ) (t h v : ℕ → ℚ) (order : List ℕ)
    (hnd : order.Nodup) (j : ℕ) :
    MeshWave.velPass nb t h v order j =
      if j ∈ order then MeshWave.damp * (v j + MeshWave.force nb t h j) else v j := by
  induction order generalizing v with
  | nil => simp [MeshWave.velPass]
  | cons i rest ih =>
    rw [List.nodup_cons] at hnd
    have step1 : MeshWave.velPass nb t h v (i :: rest) =
        MeshWave.velPass nb t h
          (Function.update v i (MeshWave.damp * (v i + MeshWave.force nb t h i))) rest := rfl
    rw [step1, ih _ hnd.2]
    by_cases hj : j ∈ rest
    · have hji : j ≠ i := fun e => hnd.1 (e ▸ hj)
      simp [hj, Function.update_noteq hji, List.mem_cons]
    · by_cases hji : j = i
      · subst hji
        simp [hj, Function.update_same]
      · simp [hj, hji, Function.update_noteq hji, List.mem_cons]

theorem viscFold_eq (nb : ℕ → List ℕ) (t h : ℕ → ℚ) (order : List ℕ) (init : ℕ → ℚ)
    (j : ℕ) :
    order.foldl (fun acc i => Function.update acc i (Viz3D.newHeight nb t h i)) init j =
      if j ∈ order then Viz3D.newHeight nb t h j else init j := by
  induction order generalizing init with
  | nil => simp
  | cons i rest ih =>
    rw [List.foldl_cons, ih]
    by_cases hj : j ∈ rest
    · simp [hj, List.mem_cons]
    · by_cases hji : j = i
      · subst hji
        simp [hj, Function.update_same]
      · simp [hj, hji, Function.update_noteq hji, List.mem_cons]

theorem viscPass_eq (nb : ℕ → List ℕ) (t h : ℕ → ℚ) (order : List ℕ) (j : ℕ) :
    Viz3D.viscPass nb t h order j =
      if j ∈ order then Viz3D.newHeight nb t h j else 0 :=
  viscFold_eq nb t h order (fun _ => 0) j

theorem mem_addNeighbor (nb : ℕ → List ℕ) (a b c x : ℕ) :
    x ∈ addNeighbor nb a b c ↔ x ∈ nb c ∨ (c = a ∧ x = b) := by
  unfold addNeighbor
  by_cases hb : b ∈ nb a
  · rw [if_pos hb]
    constructor
    · exact Or.inl
    · rintro (hx | ⟨rfl, rfl⟩)
      · exact hx
      · exact hb
  · rw [if_neg hb]
    by_cases hc : c = a
    · subst hc
      rw [Function.update_same]
      simp [List.mem_append]
    · rw [Function.update_noteq hc]
      simp [hc]

theorem addNeighbor_nodup (nb : ℕ → List ℕ) (a b : ℕ) (hnd : ∀ c, (nb c).Nodup) :
    ∀ c, (addNeighbor nb a b c).Nodup := by
  intro c
  unfold addNeighbor
  by_cases hb : b ∈ nb a
  · simpa [hb] using hnd c
  · rw [if_neg hb]
    by_cases hc : c = a
    · subst hc
      rw [Function.update_same]
      refine (hnd c).append (List.nodup_singleton b) ?_
      intro x hx hxb
      rw [List.mem_singleton] at hxb
      subst hxb
      exact hb hx
    · rw [Function.update_noteq hc]
      exact hnd c

theorem mem_addEdgePair (nb : ℕ → List ℕ) (a b c x : ℕ) :
    x ∈ addEdgePair nb a b c ↔ (x ∈ nb c ∨ (c = a ∧ x = b)) ∨ (c = b ∧ x = a) := by
  rw [addEdgePair, mem_addNeighbor, mem_addNeighbor]

theorem addEdgePair_symm (nb : ℕ → List ℕ) (a b : ℕ)
    (hs : ∀ x y, y ∈ nb x → x ∈ nb y) :
    ∀ x y, y ∈ addEdgePair nb a b x → x ∈ addEdgePair nb a b y := by
  intro x y hxy
  rw [mem_addEdgePair] at hxy ⊢
  rcases hxy with (hy | ⟨rfl, rfl⟩) | ⟨rfl, rfl⟩
  · exact Or.inl (Or.inl (hs x y hy))
  · exact Or.inr ⟨rfl, rfl⟩
  · exact Or.inl (Or.inr ⟨rfl, rfl⟩)

theorem addEdgePair_no_self (nb : ℕ → List ℕ) (a b : ℕ) (hab : a ≠ b)
    (hS : ∀ x, x ∉ nb x) : ∀ x, x ∉ addEdgePair nb a b x := by
  intro x hx
  rw [mem_addEdgePair] at hx
  rcases hx with (hy | ⟨h1, h2⟩) | ⟨h1, h2⟩
  · exact hS x hy
  · exact hab (h1.symm.trans h2)
  · exact hab (h2.symm.trans h1)

theorem addEdgePair_nodup (nb : ℕ → List ℕ) (a b : ℕ) (hnd : ∀ c, (nb c).Nodup) :
    ∀ c, (addEdgePair nb a b c).Nodup :=
  addNeighbor_nodup _ b a (addNeighbor_nodup nb a b hnd)

theorem addSimplex_symm (nb : ℕ → List ℕ) (s : ℕ × ℕ × ℕ)
    (hs : ∀ x y, y ∈ nb x → x ∈ nb y) :
    ∀ x y, y ∈ addSimplex nb s x → x ∈ addSimplex nb s y :=
  addEdgePair_symm _ _ _ (addEdgePair_symm _ _ _ (addEdgePair_symm _ _ _ hs))

theorem addSimplex_no_self (nb : ℕ → List ℕ) (s : ℕ × ℕ × ℕ)
    (hdist : s.1 ≠ s.2.1 ∧ s.2.1 ≠ s.2.2 ∧ s.2.2 ≠ s.1)
    (hS : ∀ x, x ∉ nb x) : ∀ x, x ∉ addSimplex nb s x :=
  addEdgePair_no_self _ _ _ hdist.2.2
    (addEdgePair_no_self _ _ _ hdist.2.1 (addEdgePair_no_self _ _ _ hdist.1 hS))

theorem addSimplex_nodup (nb : ℕ → List ℕ) (s : ℕ × ℕ × ℕ)
    (hnd : ∀ c, (nb c).Nodup) : ∀ c, (addSimplex nb s c).Nodup :=
  addEdgePair_nodup _ _ _ (addEdgePair_nodup _ _ _ (addEdgePair_nodup _ _ _ hnd))

theorem foldl_addSimplex_symm (ss : List (ℕ × ℕ × ℕ)) (init : ℕ → List ℕ)
    (hinit : ∀ x y, y ∈ init x → x ∈ init y) :
    ∀ x y, y ∈ ss.foldl addSimplex init x → x ∈ ss.foldl addSimplex init y := by
  induction ss generalizing init with
  | nil => exact hinit
  | cons s rest ih => exact ih _ (addSimplex_symm _ _ hinit)

theorem foldl_addSimplex_no_self (ss : List (ℕ × ℕ × ℕ)) (init : ℕ → List ℕ)
    (hvalid : ∀ s ∈ ss, s.1 ≠ s.2.1 ∧ s.2.1 ≠ s.2.2 ∧ s.2.2 ≠ s.1)
    (hinit : ∀ x, x ∉ init x) :
    ∀ x, x ∉ ss.foldl addSimplex init x := by
  induction ss generalizing init with
  | nil => exact hinit
  | cons s rest ih =>
    exact ih _ (fun u hu => hvalid u (List.mem_cons_of_mem s hu))
      (addSimplex_no_self _ _ (hvalid s (List.mem_cons_self s rest)) hinit)

theorem foldl_addSimplex_nodup (ss : List (ℕ × ℕ × ℕ)) (init : ℕ → List ℕ)
    (hinit : ∀ c, (init c).Nodup) :
    ∀ c, (ss.foldl addSimplex init c).Nodup := by
  induction ss generalizing init with
  | nil => exact hinit
  | cons s rest ih => exact ih _ (addSimplex_nodup _ _ hinit)

theorem fftBins_zero (n K : ℕ) : fftBins n K 0 = 0 := by
  simp [fftBins]

theorem fftBins_last (n K : ℕ) (hK : 0 < K) : fftBins n K K = n := by
  rw [fftBins]
  exact Nat.mul_div_cancel_left n hK

theorem fftBins_mono (n K : ℕ) {i j : ℕ} (hij : i ≤ j) : fftBins n K i ≤ fftBins n K j :=
  Nat.div_le_div_right (Nat.mul_le_mul_right n hij)

theorem fftBins_lt_succ (n K i : ℕ) (hK : 0 < K) (hKn : K ≤ n) :
    fftBins n K i < fftBins n K (i + 1) := by
  have h1 : (i * n + K) / K ≤ (i * n + n) / K :=
    Nat.div_le_div_right (Nat.add_le_add_left hKn _)
  have h2 : (i * n + K) / K = i * n / K + 1 := Nat.add_div_right _ hK
  have h3 : fftBins n K (i + 1) = (i * n + n) / K := by rw [fftBins, add_mul, one_mul]
  rw [fftBins, h3]
  omega

theorem fftBins_lt_of_lt (n K i : ℕ) (hK : 0 < K) (hKn : K ≤ n) (hi : i < K) :
    fftBins n K i < n := by
  have h1 : fftBins n K (i + 1) ≤ fftBins n K K := fftBins_mono n K hi
  have h2 := fftBins_lt_succ n K i hK hKn
  rw [fftBins_last n K hK] at h1
  omega

theorem fftBins_cover (n K : ℕ) (hK : 0 < K) (j : ℕ) (hj : j < n) :
    ∃! i, i < K ∧ fftBins n K i ≤ j ∧ j < fftBins n K (i + 1) := by
  have hP0 : fftBins n K 0 ≤ j := by simp [fftBins]
  have hle : Nat.findGreatest (fun i => fftBins n K i ≤ j) K ≤ K := Nat.findGreatest_le K
  have hPi : fftBins n K (Nat.findGreatest (fun i => fftBins n K i ≤ j) K) ≤ j :=
    Nat.findGreatest_spec (P := fun i => fftBins n K i ≤ j) (Nat.zero_le K) hP0
  have hiK : Nat.findGreatest (fun i => fftBins n K i ≤ j) K ≠ K := by
    intro e
    rw [e, fftBins_last n K hK] at hPi
    omega
  have hi0K : Nat.findGreatest (fun i => fftBins n K i ≤ j) K < K :=
    lt_of_le_of_ne hle hiK
  have hnext : ¬ fftBins n K (Nat.findGreatest (fun i => fftBins n K i ≤ j) K + 1) ≤ j :=
    Nat.findGreatest_is_greatest (P := fun i => fftBins n K i ≤ j)
      (Nat.lt_succ_self _) (by omega)
  refine ⟨Nat.findGreatest (fun i => fftBins n K i ≤ j) K, ⟨hi0K, hPi, not_le.mp hnext⟩, ?_⟩
  intro i2 hi2
  obtain ⟨hi2K, hle2, hlt2⟩ := hi2
  rcases lt_trichotomy i2 (Nat.findGreatest (fun i => fftBins n K i ≤ j) K)
    with hlt | heq | hgt
  · exfalso
    have hmono : fftBins n K (i2 + 1)
        ≤ fftBins n K (Nat.findGreatest (fun i => fftBins n K i ≤ j) K) :=
      fftBins_mono n K (by omega)
    omega
  · exact heq
  · exfalso
    have hmono : fftBins n K (Nat.findGreatest (fun i => fftBins n K i ≤ j) K + 1)
        ≤ fftBins n K i2 :=
      fftBins_mono n K (by omega)
    exact hnext (le_trans hmono hle2)

theorem fftGroups_length {α : Type} [DivisionRing α] (sp : List α) (K : ℕ) :
    (fftGroups sp K).length = K := by
  simp [fftGroups]

theorem mem_fftGroups {α : Type} [DivisionRing α] (sp : List α) (K : ℕ) (b : Option α) :
    b ∈ fftGroups sp K ↔
      ∃ i < K, b = npSliceMean sp (fftBins sp.length K i) (fftBins sp.length K (i + 1)) := by
  simp only [fftGroups, List.mem_map, List.mem_range]
  constructor
  · rintro ⟨i, hi, rfl⟩
    exact ⟨i, hi, rfl⟩
  · rintro ⟨i, hi, rfl⟩
    exact ⟨i, hi, rfl⟩

theorem mem_of_mem_slice {α : Type} {l : List α} {a m : ℕ} {x : α}
    (hx : x ∈ (l.drop a).take m) : x ∈ l :=
  (List.drop_sublist a l).subset ((List.take_sublist m (l.drop a)).subset hx)

theorem npSliceMean_nonneg {l : List ℝ} (hl : ∀ x ∈ l, 0 ≤ x) (a b : ℕ) {q : ℝ}
    (hq : npSliceMean l a b = some q) : 0 ≤ q := by
  rw [npSliceMean] at hq
  by_cases he : ((l.drop a).take (b - a)).isEmpty
  · simp [he] at hq
  · simp only [he, Bool.false_eq_true, if_false, Option.some.injEq] at hq
    rw [← hq, mean]
    apply div_nonneg
    · exact List.sum_nonneg fun x hx => hl x (mem_of_mem_slice hx)
    · exact Nat.cast_nonneg _

theorem npSliceMean_some_of_lt {α : Type} [DivisionRing α] (l : List α) (a b : ℕ)
    (ha : a < l.length) (hab : a < b) :
    ∃ q, npSliceMean l a b = some q := by
  rw [npSliceMean]
  have hne : ¬ ((l.drop a).take (b - a)).isEmpty = true := by
    rw [List.isEmpty_iff_length_eq_zero, List.length_take, List.length_drop]
    omega
  refine ⟨mean ((l.drop a).take (b - a)), ?_⟩
  simp [hne]

theorem rfftMag_length (s : List ℝ) : (rfftMag s).length = s.length / 2 + 1 := by
  rw [rfftMag, List.length_map, List.length_range]

theorem rfftMag_nonneg (s : List ℝ) : ∀ x ∈ rfftMag s, 0 ≤ x := by
  intro x hx
  rw [rfftMag, List.mem_map] at hx
  obtain ⟨k, _, hk⟩ := hx
  rw [← hk]
  exact AbsoluteValue.nonneg _ _

theorem rfftMag_replicate_zero (B : ℕ) :
    rfftMag (List.replicate B (0 : ℝ)) = List.replicate (B / 2 + 1) 0 := by
  rw [rfftMag, List.length_replicate, List.eq_replicate_iff]
  refine ⟨by rw [List.length_map, List.length_range], ?_⟩
  intro x hx
  rw [List.mem_map] at hx
  obtain ⟨k, _, hk⟩ := hx
  rw [← hk]
  have hsum : (∑ j ∈ Finset.range B,
      (((List.replicate B (0 : ℝ)).getD j 0 : ℝ) : ℂ) *
        Complex.exp (-(2 * Real.pi * Complex.I * (j : ℂ) * (k : ℂ)) / (B : ℂ))) = 0 := by
    apply Finset.sum_eq_zero
    intro j _
    have hz : (List.replicate B (0 : ℝ)).getD j 0 = 0 := by simp [List.getD]
    rw [hz]
    simp
  rw [hsum]
  exact map_zero Complex.abs

theorem mean_of_all_zero {l : List ℝ} (hz : ∀ x ∈ l, x = 0) : mean l = 0 := by
  rw [mean, List.sum_eq_zero hz, zero_div]

theorem npSliceMean_zero {l : List ℝ} (hz : ∀ x ∈ l, x = 0) (a b : ℕ) {q : ℝ}
    (hq : npSliceMean l a b = some q) : q = 0 := by
  rw [npSliceMean] at hq
  by_cases he : ((l.drop a).take (b - a)).isEmpty
  · simp [he] at hq
  · simp only [he, Bool.false_eq_true, if_false, Option.some.injEq] at hq
    rw [← hq]
    exact mean_of_all_zero fun x hx => hz x (mem_of_mem_slice hx)

theorem neighborAvg_zero_fun (nb : ℕ → List ℕ) (i : ℕ) :
    neighborAvg nb (fun _ => 0) i = 0 := by
  rw [neighborAvg]
  by_cases h : nb i ≠ []
  · rw [if_pos h, mean]
    simp
  · rw [if_neg h]

theorem velPass_zero_state (nb : ℕ → List ℕ) (n : ℕ) :
    MeshWave.velPass nb (fun _ => 0) (fun _ => 0) (fun _ => 0) (List.range n) =
      fun _ => 0 := by
  funext j
  rw [velPass_eq nb _ _ _ _ (List.nodup_range n) j]
  by_cases hj : j ∈ List.range n
  · rw [if_pos hj, MeshWave.force, neighborAvg_zero_fun]
    norm_num
  · rw [if_neg hj]

theorem iter_zero_target (nb : ℕ → List ℕ) (n m : ℕ) :
    MeshWave.iter nb n (fun _ => 0) m = (fun _ => 0, fun _ => 0) := by
  induction m with
  | zero => rfl
  | succ m ih =>
    show MeshWave.step nb n (fun _ => 0) (MeshWave.iter nb n (fun _ => 0) m).1
        (MeshWave.iter nb n (fun _ => 0) m).2 = _
    rw [ih]
    refine Prod.ext ?_ ?_
    · show (fun i => if i < n then (0 : ℚ) +
          MeshWave.velPass nb (fun _ => 0) (fun _ => 0) (fun _ => 0) (List.range n) i
        else 0) = fun _ => 0
      funext i
      rw [velPass_zero_state]
      by_cases hi : i < n
      · rw [if_pos hi, add_zero]
      · rw [if_neg hi]
    · exact velPass_zero_state nb n

theorem foldl_min_le_init (xs : List ℝ) (a : ℝ) : xs.foldl min a ≤ a := by
  induction xs generalizing a with
  | nil => simp
  | cons x xs ih =>
    rw [List.foldl_cons]
    exact le_trans (ih (min a x)) (min_le_left a x)

theorem foldl_min_le_mem (xs : List ℝ) (a : ℝ) : ∀ x ∈ xs, xs.foldl min a ≤ x := by
  induction xs generalizing a with
  | nil =>
    intro x hx
    exact absurd hx (List.not_mem_nil x)
  | cons y ys ih =>
    intro x hx
    rw [List.foldl_cons]
    rcases List.mem_cons.mp hx with rfl | hx2
    · exact le_trans (foldl_min_le_init ys (min a x)) (min_le_right a x)
    · exact ih (min a y) x hx2

theorem foldl_min_mem (xs : List ℝ) (a : ℝ) :
    xs.foldl min a = a ∨ xs.foldl min a ∈ xs := by
  induction xs generalizing a with
  | nil => exact Or.inl rfl
  | cons y ys ih =>
    rw [List.foldl_cons]
    rcases ih (min a y) with h | h
    · rcases min_choice a y with hm | hm
      · exact Or.inl (h.trans hm)
      · exact Or.inr (List.mem_cons.mpr (Or.inl (h.trans hm)))
    · exact Or.inr (List.mem_cons.mpr (Or.inr h))

theorem pyMin_le {l : List ℝ} (x : ℝ) (hx : x ∈ l) : pyMin l ≤ x := by
  cases l with
  | nil => exact absurd hx (List.not_mem_nil x)
  | cons y ys =>
    show ys.foldl min y ≤ x
    rcases List.mem_cons.mp hx with rfl | hx2
    · exact foldl_min_le_init ys x
    · exact foldl_min_le_mem ys y x hx2

theorem pyMin_mem {l : List ℝ} (hl : l ≠ []) : pyMin l ∈ l := by
  cases l with
  | nil => exact absurd rfl hl
  | cons y ys =>
    show ys.foldl min y ∈ y :: ys
    rcases foldl_min_mem ys y with h | h
    · rw [h]
      exact List.mem_cons_self y ys
    · exact List.mem_cons_of_mem y h

theorem minDistTo_le (p : ℝ × ℝ) (hs : List (ℝ × ℝ)) (c : ℝ × ℝ) (hc : c ∈ hs) :
    minDistTo p hs ≤ npHypot (p.1 - c.1) (p.2 - c.2) :=
  pyMin_le _ (List.mem_map_of_mem _ hc)

theorem minDistTo_attained (p : ℝ × ℝ) (hs : List (ℝ × ℝ)) (hne : hs ≠ []) :
    ∃ c ∈ hs, minDistTo p hs = npHypot (p.1 - c.1) (p.2 - c.2) := by
  have hmem : pyMin (hs.map fun c => npHypot (p.1 - c.1) (p.2 - c.2))
      ∈ hs.map fun c => npHypot (p.1 - c.1) (p.2 - c.2) :=
    pyMin_mem (by simpa using hne)
  rw [List.mem_map] at hmem
  obtain ⟨c, hc, heq⟩ := hmem
  exact ⟨c, hc, by rw [minDistTo, ← heq]⟩

theorem hotspotRel_nonneg (p : ℝ × ℝ) (hs : List (ℝ × ℝ)) : 0 ≤ hotspotRel p hs :=
  le_min (by norm_num) (le_max_left 0 _)

theorem hotspotRel_le_one (p : ℝ × ℝ) (hs : List (ℝ × ℝ)) : hotspotRel p hs ≤ 1 :=
  min_le_left _ _

theorem hotspotBin_lt (p : ℝ × ℝ) (hs : List (ℝ × ℝ)) (K : ℕ) (hK : 1 ≤ K) :
    hotspotBin p hs K < K := by
  rw [hotspotBin]
  have hKr : (0 : ℝ) ≤ (K : ℝ) - 1 := by
    rw [sub_nonneg]
    exact_mod_cast hK
  have h1 : hotspotRel p hs * ((K : ℝ) - 1) ≤ (K : ℝ) - 1 := by
    calc hotspotRel p hs * ((K : ℝ) - 1) ≤ 1 * ((K : ℝ) - 1) :=
      mul_le_mul_of_nonneg_right (hotspotRel_le_one p hs) hKr
    _ = (K : ℝ) - 1 := one_mul _
  have h3 : ⌊((K : ℝ) - 1)⌋ = (K : ℤ) - 1 := by
    rw [show ((K : ℝ) - 1) = ((K : ℝ) - ((1 : ℤ) : ℝ)) by norm_num, Int.floor_sub_int,
      Int.floor_natCast]
  have hfloor : ⌊hotspotRel p hs * ((K : ℝ) - 1)⌋ ≤ (K : ℤ) - 1 := by
    have h4 := Int.floor_le_floor h1
    rw [h3] at h4
    exact h4
  have h2 := Int.toNat_le_toNat hfloor
  omega

theorem clip_abs_le (x : ℚ) : |min 1 (max (-1) x)| ≤ 1 := by
  rw [abs_le]
  exact ⟨le_min (by norm_num) (le_max_left _ _), min_le_left _ _⟩

theorem clip_abs_ge_iff (x : ℚ) : 1 ≤ |min 1 (max (-1) x)| ↔ 1 ≤ |x| := by
  by_cases h1 : 1 ≤ x
  · have hcl : min 1 (max (-1) x) = 1 := by
      rw [max_eq_right (le_trans (by norm_num) h1), min_eq_left h1]
    rw [hcl]
    simp [le_trans h1 (le_abs_self x)]
  · push_neg at h1
    by_cases h2 : x ≤ -1
    · have hcl : min 1 (max (-1) x) = -1 := by
        rw [max_eq_left h2]
        norm_num
      rw [hcl]
      simp only [abs_neg, abs_one, le_refl, true_iff]
      exact le_abs.mpr (Or.inr (by linarith))
    · push_neg at h2
      have hcl : min 1 (max (-1) x) = x := by
        rw [max_eq_right h2.le, min_eq_right h1.le]
      rw [hcl]

/-! ## Claim theorems -/

/-- C1: in velocity mode, for every point i < n the frame update computes
neighbor_avg as the mean of the neighbors' previous heights (0 if none),
force = spring_k * (target - h) + neighbor_k * (neighbor_avg - h),
new velocity = damp * (old velocity + force), and the new height is the
old height plus the new velocity. -/
theorem velocity_update_per_point (nb : ℕ → List ℕ) (n : ℕ) (t h v : ℕ → ℚ) (i : ℕ)
    (hi : i < n) :
    (MeshWave.step nb n t h v).2 i =
      MeshWave.damp * (v i +
        (MeshWave.spring_k * (t i - h i) +
          MeshWave.neighbor_k * (neighborAvg nb h i - h i)))
    ∧ (MeshWave.step nb n t h v).1 i = h i + (MeshWave.step nb n t h v).2 i := by
  have hv : (MeshWave.step nb n t h v).2 i =
      MeshWave.damp * (v i +
        (MeshWave.spring_k * (t i - h i) +
          MeshWave.neighbor_k * (neighborAvg nb h i - h i))) := by
    show MeshWave.velPass nb t h v (List.range n) i = _
    rw [velPass_eq nb t h v (List.range n) (List.nodup_range n) i]
    simp [List.mem_range, hi, MeshWave.force]
  refine ⟨hv, ?_⟩
  show (if i < n then h i + (MeshWave.step nb n t h v).2 i else h i) = _
  simp [hi]

theorem velocity_update_per_point_witness :
    (0 : ℕ) < 1 ∧
      ((MeshWave.step (fun _ => []) 1 (fun _ => 1) (fun _ => 0) (fun _ => 0)).2 0 =
        MeshWave.damp * (0 +
          (MeshWave.spring_k * (1 - 0) +
            MeshWave.neighbor_k * (neighborAvg (fun _ => []) (fun _ => 0) 0 - 0)))
      ∧ (MeshWave.step (fun _ => []) 1 (fun _ => 1) (fun _ => 0) (fun _ => 0)).1 0 =
          0 + (MeshWave.step (fun _ => []) 1 (fun _ => 1) (fun _ => 0) (fun _ => 0)).2 0) :=
  ⟨by decide,
    velocity_update_per_point (fun _ => []) 1 (fun _ => 1) (fun _ => 0) (fun _ => 0) 0
      (by decide)⟩

/-- C10: the per-frame relaxation update is simultaneous (Jacobi-style):
iterating the velocity write loop, or the new_heights write loop, in any
order that visits each of the n points exactly once yields the same
result as the simultaneous vectorised update computed from the previous
frame's heights alone. -/
theorem jacobi_update_order_independent (nb : ℕ → List ℕ) (n : ℕ) (t h v : ℕ → ℚ)
    (order : List ℕ) (hp : order.Perm (List.range n)) :
    MeshWave.velPass nb t h v order = MeshWave.velStepSim nb n t h v
    ∧ (fun i => if i < n then h i + MeshWave.velPass nb t h v order i else h i)
        = (MeshWave.step nb n t h v).1
    ∧ Viz3D.viscPass nb t h order = Viz3D.viscStepSim nb n t h := by
  have hnd : order.Nodup := hp.nodup_iff.mpr (List.nodup_range n)
  have hmem : ∀ j, j ∈ order ↔ j < n := fun j => by rw [hp.mem_iff, List.mem_range]
  have h1 : MeshWave.velPass nb t h v order = MeshWave.velStepSim nb n t h v := by
    funext j
    rw [velPass_eq nb t h v order hnd j, MeshWave.velStepSim]
    by_cases hj : j < n <;> simp [hj, hmem j]
  have hr : MeshWave.velPass nb t h v (List.range n) = MeshWave.velStepSim nb n t h v := by
    funext j
    rw [velPass_eq nb t h v (List.range n) (List.nodup_range n) j, MeshWave.velStepSim]
    by_cases hj : j < n <;> simp [hj, List.mem_range]
  refine ⟨h1, ?_, ?_⟩
  · have : (MeshWave.step nb n t h v).1 =
        fun i => if i < n then h i + MeshWave.velPass nb t h v (List.range n) i else h i := rfl
    rw [this, h1, hr]
  · funext j
    rw [viscPass_eq nb t h order j, Viz3D.viscStepSim]
    by_cases hj : j < n <;> simp [hj, hmem j]

theorem jacobi_update_order_independent_witness :
    List.Perm [1, 0] (List.range 2) ∧
      (MeshWave.velPass (fun _ => []) (fun _ => 0) (fun _ => 0) (fun _ => 0) [1, 0] =
        MeshWave.velStepSim (fun _ => []) 2 (fun _ => 0) (fun _ => 0) (fun _ => 0)
      ∧ (fun i => if i < 2 then
            (fun _ => (0 : ℚ)) i +
              MeshWave.velPass (fun _ => []) (fun _ => 0) (fun _ => 0) (fun _ => 0) [1, 0] i
          else (fun _ => (0 : ℚ)) i)
          = (MeshWave.step (fun _ => []) 2 (fun _ => 0) (fun _ => 0) (fun _ => 0)).1
      ∧ Viz3D.viscPass (fun _ => []) (fun _ => 0) (fun _ => 0) [1, 0] =
          Viz3D.viscStepSim (fun _ => []) 2 (fun _ => 0) (fun _ => 0)) :=
  ⟨by decide,
    jacobi_update_order_independent (fun _ => []) 2 (fun _ => 0) (fun _ => 0) (fun _ => 0)
      [1, 0] (by decide)⟩

/-- C6: for any list of triangles whose three vertices are pairwise
distinct along each edge (as a triangulation guarantees), the neighbor
lists built by the guarded-append construction are symmetric, have no
self-loops, and contain no duplicate entries. -/
theorem neighbor_list_invariants (ss : List (ℕ × ℕ × ℕ))
    (hvalid : ∀ s ∈ ss, s.1 ≠ s.2.1 ∧ s.2.1 ≠ s.2.2 ∧ s.2.2 ≠ s.1) :
    (∀ a b, b ∈ buildNeighbors ss a → a ∈ buildNeighbors ss b)
    ∧ (∀ a, a ∉ buildNeighbors ss a)
    ∧ (∀ a, (buildNeighbors ss a).Nodup) :=
  ⟨foldl_addSimplex_symm ss _ (by intro x y hy; simp at hy),
    foldl_addSimplex_no_self ss _ hvalid (by intro x hx; simp at hx),
    foldl_addSimplex_nodup ss _ (fun _ => List.nodup_nil)⟩

theorem neighbor_list_invariants_witness :
    (∀ s ∈ [((0, 1, 2) : ℕ × ℕ × ℕ)], s.1 ≠ s.2.1 ∧ s.2.1 ≠ s.2.2 ∧ s.2.2 ≠ s.1) ∧
      ((∀ a b, b ∈ buildNeighbors [(0, 1, 2)] a → a ∈ buildNeighbors [(0, 1, 2)] b)
      ∧ (∀ a, a ∉ buildNeighbors [(0, 1, 2)] a)
      ∧ (∀ a, (buildNeighbors [(0, 1, 2)] a).Nodup)) :=
  ⟨by decide, neighbor_list_invariants [(0, 1, 2)] (by decide)⟩

/-- C9: a hotspot advance moves each axis by drift plus the jitter, clamps
the position into [-1, 1], and flips that axis's drift sign exactly when
the (pre-clamp, equivalently post-clamp) position reaches magnitude 1 or
more, each axis independently; in particular a hotspot driven to x ≥ 1
ends at x = 1 with its x-drift sign flipped on that step. -/
theorem hotspot_move_reflection (h : Hotspot) (jx jy : ℚ) :
    |(h.move jx jy).x| ≤ 1
    ∧ |(h.move jx jy).y| ≤ 1
    ∧ (h.move jx jy).x = min 1 (max (-1) (h.x + h.dx + jx))
    ∧ (h.move jx jy).y = min 1 (max (-1) (h.y + h.dy + jy))
    ∧ ((h.move jx jy).dx = if 1 ≤ |h.x + h.dx + jx| then -h.dx else h.dx)
    ∧ ((h.move jx jy).dy = if 1 ≤ |h.y + h.dy + jy| then -h.dy else h.dy)
    ∧ (1 ≤ h.x + h.dx + jx → (h.move jx jy).x = 1 ∧ (h.move jx jy).dx = -h.dx) := by
  have hX : (h.move jx jy).x = min 1 (max (-1) (h.x + h.dx + jx)) := rfl
  have hY : (h.move jx jy).y = min 1 (max (-1) (h.y + h.dy + jy)) := rfl
  have hDX : (h.move jx jy).dx =
      if 1 ≤ |min 1 (max (-1) (h.x + h.dx + jx))| then -h.dx else h.dx := rfl
  have hDY : (h.move jx jy).dy =
      if 1 ≤ |min 1 (max (-1) (h.y + h.dy + jy))| then -h.dy else h.dy := rfl
  refine ⟨hX ▸ clip_abs_le _, hY ▸ clip_abs_le _, hX, hY, ?_, ?_, ?_⟩
  · rw [hDX, if_congr (clip_abs_ge_iff _) rfl rfl]
  · rw [hDY, if_congr (clip_abs_ge_iff _) rfl rfl]
  · intro hdrive
    have hcl : min 1 (max (-1) (h.x + h.dx + jx)) = 1 := by
      rw [max_eq_right (le_trans (by norm_num) hdrive), min_eq_left hdrive]
    constructor
    · rw [hX, hcl]
    · rw [hDX, hcl, if_pos (by norm_num)]

theorem hotspot_move_reflection_witness :
    (1 : ℚ) ≤ (1 / 2 : ℚ) + (6 / 10 : ℚ) + (1 / 10 : ℚ) ∧
      ((Hotspot.move ⟨1 / 2, 0, 6 / 10, 0⟩ (1 / 10) 0).x = 1
      ∧ (Hotspot.move ⟨1 / 2, 0, 6 / 10, 0⟩ (1 / 10) 0).dx = -(6 / 10)) :=
  ⟨by norm_num,
    (hotspot_move_reflection ⟨1 / 2, 0, 6 / 10, 0⟩ (1 / 10) 0).2.2.2.2.2.2 (by norm_num)⟩

/-- C4 counterexample: at avg_energy = 1/10 and max_hotspots = 8 the code
computes int(clip(1 + 0.1 * 16, 1, 8)) = floor(2.6) = 2, while the claimed
formula clamp(round(1 + avg_energy * 16), 1, max_hotspots) gives
clamp(round(2.6)) = 3. -/
theorem hotspot_count_not_round :
    nHot (1 / 10) 8 ≠ max 1 (min 8 (round ((1 : ℚ) + (1 / 10) * 16))) := by
  have h1 : nHot (1 / 10) 8 = 2 := by
    rw [nHot]
    have hmin : min ((8 : ℕ) : ℚ) (max 1 (1 + (1 / 10) * 16)) = 13 / 5 := by norm_num
    rw [hmin, Int.floor_eq_iff]
    norm_num
  have h2 : round ((1 : ℚ) + (1 / 10) * 16) = 3 := by
    rw [round_eq, Int.floor_eq_iff]
    norm_num
  rw [h1, h2]
  decide

/-- C4 (amended): the per-frame hotspot target count is
floor(clamp(1 + avg_energy * 16, 1, max_hotspots)) — the code clamps first
and then truncates, it does not round; in particular avg_energy = 0 gives
1 and avg_energy ≥ (max_hotspots - 1) / 16 gives max_hotspots, as claimed. -/
theorem hotspot_count_bounds (bars : List ℚ) (maxH : ℕ) (hmax : 1 ≤ maxH) :
    1 ≤ nHot (avgEnergy bars) maxH
    ∧ nHot (avgEnergy bars) maxH ≤ maxH
    ∧ (avgEnergy bars = 0 → nHot (avgEnergy bars) maxH = 1)
    ∧ ((maxH : ℚ) - 1 ≤ avgEnergy bars * 16 → nHot (avgEnergy bars) maxH = maxH) := by
  have hM : (1 : ℚ) ≤ (maxH : ℚ) := by exact_mod_cast hmax
  refine ⟨?_, ?_, ?_, ?_⟩
  · rw [nHot]
    have : (1 : ℚ) ≤ min (maxH : ℚ) (max 1 (1 + avgEnergy bars * 16)) :=
      le_min hM (le_max_left _ _)
    calc (1 : ℤ) = ⌊(1 : ℚ)⌋ := by norm_num
    _ ≤ _ := Int.floor_le_floor this
  · rw [nHot]
    calc ⌊min (maxH : ℚ) (max 1 (1 + avgEnergy bars * 16))⌋
        ≤ ⌊(maxH : ℚ)⌋ := Int.floor_le_floor (min_le_left _ _)
    _ = (maxH : ℤ) := Int.floor_natCast maxH
  · intro h0
    rw [nHot, h0]
    norm_num [min_eq_right hM]
  · intro hbig
    rw [nHot]
    have h1 : (1 : ℚ) ≤ 1 + avgEnergy bars * 16 := by linarith
    rw [max_eq_right h1, min_eq_left (by linarith), Int.floor_natCast]

theorem hotspot_count_bounds_witness :
    1 ≤ 8 ∧
      (1 ≤ nHot (avgEnergy [1 / 10]) 8
      ∧ nHot (avgEnergy [1 / 10]) 8 ≤ 8
      ∧ (avgEnergy [1 / 10] = 0 → nHot (avgEnergy [1 / 10]) 8 = 1)
      ∧ ((8 : ℚ) - 1 ≤ avgEnergy [1 / 10] * 16 → nHot (avgEnergy [1 / 10]) 8 = 8)) :=
  ⟨by decide, hotspot_count_bounds [1 / 10] 8 (by decide)⟩

/-- C5 counterexample: with num_bins = 3 and K = 2 the code's boundary at
i = 1 is int(1 * 3 / 2) = 1 (np.linspace dtype=int truncates), not
round(1 * 3 / 2) = 2 as claimed. -/
theorem fft_bins_not_round :
    ¬ ((fftBins 3 2 1 : ℤ) = round ((1 * 3 : ℚ) / 2)) := by
  have h1 : fftBins 3 2 1 = 1 := by decide
  have h2 : round ((1 * 3 : ℚ) / 2) = 2 := by
    rw [round_eq, Int.floor_eq_iff]
    norm_num
  rw [h1, h2]
  decide

/-- C5 (amended): compute_fft_bars partitions the magnitude bins into K
contiguous non-overlapping groups whose K + 1 boundaries are the
truncated (floored, not rounded) values int(i * num_bins / K); the first
boundary is 0, the last is num_bins, the boundaries are monotone, and
when K ≤ num_bins every magnitude bin falls in exactly one group — full
coverage, no overlap, no gaps. -/
theorem fft_partition_complete (n K : ℕ) (hK : 0 < K) :
    fftBins n K 0 = 0
    ∧ fftBins n K K = n
    ∧ (∀ i j, i ≤ j → fftBins n K i ≤ fftBins n K j)
    ∧ (∀ j < n, ∃! i, i < K ∧ fftBins n K i ≤ j ∧ j < fftBins n K (i + 1)) :=
  ⟨fftBins_zero n K, fftBins_last n K hK,
    fun _ _ hij => fftBins_mono n K hij,
    fun j hj => fftBins_cover n K hK j hj⟩

theorem fft_partition_complete_witness :
    0 < 2 ∧
      (fftBins 5 2 0 = 0
      ∧ fftBins 5 2 2 = 5
      ∧ (∀ i j, i ≤ j → fftBins 5 2 i ≤ fftBins 5 2 j)
      ∧ (∀ j < 5, ∃! i, i < 2 ∧ fftBins 5 2 i ≤ j ∧ j < fftBins 5 2 (i + 1))) :=
  ⟨by decide, fft_partition_complete 5 2 (by decide)⟩

/-- C2 counterexample: for the one-sample block S = [1] and K = 2 the
magnitude spectrum is [1] (a single bin), the first group is empty, and
numpy's mean of an empty slice is NaN (modelled `none`) — not 0 and not
a non-negative value, contradicting the claim for K > num_bins. -/
theorem compute_fft_bars_nan_on_empty_group :
    compute_fft_bars [1] 2 = [none, some 1] ∧ (none : Option ℝ) ≠ some 0 := by
  constructor
  · have hmag : rfftMag [1] = [1] := by
      rw [rfftMag]
      simp only [List.length_singleton, Nat.reduceDiv, Nat.reduceAdd, List.range_succ,
        List.range_zero, List.nil_append, List.map_cons, List.map_nil]
      rw [Finset.sum_range_one]
      norm_num [Complex.exp_zero, map_one]
    rw [compute_fft_bars, hmag]
    have h0 : fftBins 1 2 0 = 0 := by decide
    have h1 : fftBins 1 2 1 = 0 := by decide
    have h2 : fftBins 1 2 2 = 1 := by decide
    simp only [fftGroups, List.length_singleton, List.range_succ, List.range_zero,
      List.nil_append, List.cons_append, List.map_cons, List.map_nil, h0, h1, h2]
    norm_num [npSliceMean, mean]
  · simp

/-- C2 (amended): compute_fft_bars always returns exactly K values; every
defined value is non-negative; and whenever K ≤ num_bins (= B/2 + 1, true
of every caller in the repository) every group is non-empty, so all K
values are defined and non-negative.  An empty group — possible only when
K > num_bins — yields numpy's NaN (`none`), not 0. -/
theorem compute_fft_bars_shape (S : List ℝ) (K : ℕ) :
    (compute_fft_bars S K).length = K
    ∧ (∀ b ∈ compute_fft_bars S K, ∀ q : ℝ, b = some q → 0 ≤ q)
    ∧ (K ≤ S.length / 2 + 1 →
        ∀ b ∈ compute_fft_bars S K, ∃ q : ℝ, b = some q ∧ 0 ≤ q) := by
  refine ⟨by rw [compute_fft_bars, fftGroups_length], ?_, ?_⟩
  · intro b hb q hbq
    rw [compute_fft_bars, mem_fftGroups] at hb
    obtain ⟨i, hiK, rfl⟩ := hb
    exact npSliceMean_nonneg (rfftMag_nonneg S) _ _ hbq
  · intro hKlen b hb
    rw [compute_fft_bars, mem_fftGroups] at hb
    obtain ⟨i, hiK, rfl⟩ := hb
    have hK0 : 0 < K := by omega
    have hKn : K ≤ (rfftMag S).length := by rw [rfftMag_length]; exact hKlen
    have ha : fftBins (rfftMag S).length K i < (rfftMag S).length :=
      fftBins_lt_of_lt _ K i hK0 hKn hiK
    have hab : fftBins (rfftMag S).length K i < fftBins (rfftMag S).length K (i + 1) :=
      fftBins_lt_succ _ K i hK0 hKn
    obtain ⟨q, hq⟩ := npSliceMean_some_of_lt (rfftMag S) _ _ ha hab
    exact ⟨q, hq, npSliceMean_nonneg (rfftMag_nonneg S) _ _ hq⟩

theorem compute_fft_bars_shape_witness :
    (2 : ℕ) ≤ [1, 1, 1, 1].length / 2 + 1 ∧
      ((compute_fft_bars [1, 1, 1, 1] 2).length = 2
      ∧ (∀ b ∈ compute_fft_bars [1, 1, 1, 1] 2, ∀ q : ℝ, b = some q → 0 ≤ q)
      ∧ ((2 : ℕ) ≤ [(1 : ℝ), 1, 1, 1].length / 2 + 1 →
          ∀ b ∈ compute_fft_bars [1, 1, 1, 1] 2, ∃ q : ℝ, b = some q ∧ 0 ≤ q)) :=
  ⟨by norm_num, compute_fft_bars_shape [1, 1, 1, 1] 2⟩

/-- C8: for an all-zero sample block of any positive size B and any bar
count 0 < K ≤ num_bins, every spectrum bar is (a defined) 0; and from
heights = velocities = 0 with all targets 0, any number of velocity-mode
relaxation steps leaves heights and velocities exactly 0: the zero state
is a fixed point under silent input. -/
theorem silent_input_zero_fixed_point (B K : ℕ) (hK : 0 < K) (hKB : K ≤ B / 2 + 1)
    (nb : ℕ → List ℕ) (n : ℕ) :
    (∀ bar ∈ compute_fft_bars (List.replicate B (0 : ℝ)) K, bar = some 0)
    ∧ ∀ m, MeshWave.iter nb n (fun _ => 0) m = (fun _ => 0, fun _ => 0) := by
  constructor
  · intro bar hbar
    rw [compute_fft_bars, rfftMag_replicate_zero, mem_fftGroups] at hbar
    obtain ⟨i, hiK, rfl⟩ := hbar
    have hlen : (List.replicate (B / 2 + 1) (0 : ℝ)).length = B / 2 + 1 :=
      List.length_replicate _ _
    have hKn : K ≤ (List.replicate (B / 2 + 1) (0 : ℝ)).length := by rw [hlen]; exact hKB
    have ha : fftBins (List.replicate (B / 2 + 1) (0 : ℝ)).length K i
        < (List.replicate (B / 2 + 1) (0 : ℝ)).length :=
      fftBins_lt_of_lt _ K i hK hKn hiK
    have hab : fftBins (List.replicate (B / 2 + 1) (0 : ℝ)).length K i
        < fftBins (List.replicate (B / 2 + 1) (0 : ℝ)).length K (i + 1) :=
      fftBins_lt_succ _ K i hK hKn
    obtain ⟨q, hq⟩ := npSliceMean_some_of_lt (List.replicate (B / 2 + 1) (0 : ℝ)) _ _ ha hab
    have hq0 : q = 0 :=
      npSliceMean_zero (fun x hx => List.eq_of_mem_replicate hx) _ _ hq
    rw [hq, hq0]
  · exact iter_zero_target nb n

theorem silent_input_zero_fixed_point_witness :
    0 < 3 ∧ (3 : ℕ) ≤ 4 / 2 + 1 ∧
      ((∀ bar ∈ compute_fft_bars (List.replicate 4 (0 : ℝ)) 3, bar = some 0)
      ∧ ∀ m, MeshWave.iter (fun _ => [0]) 4 (fun _ => 0) m = (fun _ => 0, fun _ => 0)) :=
  ⟨by decide, by decide,
    silent_input_zero_fixed_point 4 3 (by decide) (by decide) (fun _ => [0]) 4⟩

/-- C3 counterexample: for the mesh point (0,0), the single hotspot (1,0)
(distance 1) and num_bars = 3 we get rel = clip(1 - (1 * 0.5) / 2) = 0.75,
so rel * (num_bars - 1) = 1.5; the code's int() truncation picks bin 1
while the claimed round picks bin 2. -/
theorem hotspot_bin_truncates_not_rounds :
    hotspotBin (0, 0) [(1, 0)] 3 = 1
    ∧ round (hotspotRel (0, 0) [(1, 0)] * ((3 : ℝ) - 1)) = 2 := by
  have hd : minDistTo (0, 0) [(1, 0)] = 1 := by
    rw [minDistTo]
    simp only [List.map_cons, List.map_nil]
    show npHypot ((0 : ℝ) - 1) ((0 : ℝ) - 0) = 1
    rw [npHypot]
    norm_num [Real.sqrt_one]
  have hrel : hotspotRel (0, 0) [(1, 0)] = 3 / 4 := by
    rw [hotspotRel, hd]
    norm_num
  constructor
  · rw [hotspotBin, hrel]
    have hmul : (3 / 4 : ℝ) * (((3 : ℕ) : ℝ) - 1) = 3 / 2 := by norm_num
    rw [hmul]
    have hf : ⌊(3 / 2 : ℝ)⌋ = 1 := by
      rw [Int.floor_eq_iff]
      norm_num
    rw [hf]
    decide
  · rw [hrel]
    have hmul : (3 / 4 : ℝ) * ((3 : ℝ) - 1) = 3 / 2 := by norm_num
    rw [hmul, round_eq]
    have hadd : (3 / 2 : ℝ) + 1 / 2 = 2 := by norm_num
    rw [hadd]
    have : ((2 : ℝ)) = (((2 : ℤ)) : ℝ) := by norm_num
    rw [this, Int.floor_intCast]

/-- C3 (amended): in hotspot mode the target for a mesh point is derived
by taking min_dist as the true minimum distance to the active hotspots
(a lower bound attained by some hotspot), rel = clip(1 - (min_dist * 0.5) / 2, 0, 1)
which lies in [0, 1], bin = int(rel * (num_bars - 1)) — the floor, not the
round, of rel * (num_bars - 1) — which is a valid index < num_bars, and
target = bars[bin] * 8. -/
theorem hotspot_target_selection (p : ℝ × ℝ) (hs : List (ℝ × ℝ)) (bars : List ℝ)
    (hne : hs ≠ []) (hK : 1 ≤ bars.length) :
    (∀ c ∈ hs, minDistTo p hs ≤ npHypot (p.1 - c.1) (p.2 - c.2))
    ∧ (∃ c ∈ hs, minDistTo p hs = npHypot (p.1 - c.1) (p.2 - c.2))
    ∧ 0 ≤ hotspotRel p hs
    ∧ hotspotRel p hs ≤ 1
    ∧ hotspotRel p hs = min 1 (max 0 (1 - minDistTo p hs * 0.5 / 2))
    ∧ hotspotBin p hs bars.length
        = (⌊hotspotRel p hs * ((bars.length : ℝ) - 1)⌋).toNat
    ∧ hotspotBin p hs bars.length < bars.length
    ∧ hotspotTarget p hs bars = bars.getD (hotspotBin p hs bars.length) 0 * 8 :=
  ⟨fun c hc => minDistTo_le p hs c hc,
    minDistTo_attained p hs hne,
    hotspotRel_nonneg p hs,
    hotspotRel_le_one p hs,
    rfl,
    rfl,
    hotspotBin_lt p hs bars.length hK,
    rfl⟩

theorem hotspot_target_selection_witness :
    ([((0 : ℝ), (0 : ℝ))] ≠ []) ∧ 1 ≤ [(0 : ℝ)].length ∧
      ((∀ c ∈ [((0 : ℝ), (0 : ℝ))], minDistTo (0, 0) [(0, 0)]
          ≤ npHypot ((0 : ℝ) - c.1) ((0 : ℝ) - c.2))
      ∧ (∃ c ∈ [((0 : ℝ), (0 : ℝ))], minDistTo (0, 0) [(0, 0)]
          = npHypot ((0 : ℝ) - c.1) ((0 : ℝ) - c.2))
      ∧ 0 ≤ hotspotRel (0, 0) [(0, 0)]
      ∧ hotspotRel (0, 0) [(0, 0)] ≤ 1
      ∧ hotspotRel (0, 0) [(0, 0)]
          = min 1 (max 0 (1 - minDistTo (0, 0) [(0, 0)] * 0.5 / 2))
      ∧ hotspotBin (0, 0) [(0, 0)] [(0 : ℝ)].length
          = (⌊hotspotRel (0, 0) [(0, 0)] * (([(0 : ℝ)].length : ℝ) - 1)⌋).toNat
      ∧ hotspotBin (0, 0) [(0, 0)] [(0 : ℝ)].length < [(0 : ℝ)].length
      ∧ hotspotTarget (0, 0) [(0, 0)] [(0 : ℝ)]
          = [(0 : ℝ)].getD (hotspotBin (0, 0) [(0, 0)] [(0 : ℝ)].length) 0 * 8) :=
  ⟨by simp, by norm_num,
    hotspot_target_selection (0, 0) [(0, 0)] [(0 : ℝ)] (by simp) (by norm_num)⟩

theorem damp_eq : MeshWave.damp = 22 / 25 := by norm_num [MeshWave.damp]

theorem spring_k_eq : MeshWave.spring_k = 3 / 25 := by norm_num [MeshWave.spring_k]

theorem iter_succ_eq (nb : ℕ → List ℕ) (n : ℕ) (t : ℕ → ℚ) (m : ℕ) :
    MeshWave.iter nb n t (m + 1) =
      MeshWave.step nb n t (MeshWave.iter nb n t m).1 (MeshWave.iter nb n t m).2 := rfl

theorem scalarIter_succ_eq (m : ℕ) : scalarIter (m + 1) = scalarStep (scalarIter m) :=
  Function.iterate_succ_apply' scalarStep m (0, 0)

theorem step_point (nb : ℕ → List ℕ) (n : ℕ) (t h v : ℕ → ℚ) (i : ℕ) (hi : i < n) :
    (MeshWave.step nb n t h v).2 i = MeshWave.damp * (v i + MeshWave.force nb t h i)
    ∧ (MeshWave.step nb n t h v).1 i = h i + (MeshWave.step nb n t h v).2 i := by
  have hv : (MeshWave.step nb n t h v).2 i =
      MeshWave.damp * (v i + MeshWave.force nb t h i) := by
    show MeshWave.velPass nb t h v (List.range n) i = _
    rw [velPass_eq nb t h v (List.range n) (List.nodup_range n) i,
      if_pos (List.mem_range.mpr hi)]
  refine ⟨hv, ?_⟩
  show (if i < n then h i + (MeshWave.step nb n t h v).2 i else h i) = _
  rw [if_pos hi]

theorem step_point_frozen (nb : ℕ → List ℕ) (n : ℕ) (t h v : ℕ → ℚ) (i : ℕ)
    (hi : ¬ i < n) :
    (MeshWave.step nb n t h v).2 i = v i ∧ (MeshWave.step nb n t h v).1 i = h i := by
  have hv : (MeshWave.step nb n t h v).2 i = v i := by
    show MeshWave.velPass nb t h v (List.range n) i = _
    rw [velPass_eq nb t h v (List.range n) (List.nodup_range n) i,
      if_neg (fun hmem => hi (List.mem_range.mp hmem))]
  refine ⟨hv, ?_⟩
  show (if i < n then h i + (MeshWave.step nb n t h v).2 i else h i) = _
  rw [if_neg hi]

theorem iter_uniform (nb : ℕ → List ℕ) (n : ℕ)
    (hne : ∀ i < n, nb i ≠ []) (hsub : ∀ i < n, ∀ j ∈ nb i, j < n) (m : ℕ) :
    (∀ i, i < n → (MeshWave.iter nb n (fun _ => 1 / 2) m).1 i = (scalarIter m).1
      ∧ (MeshWave.iter nb n (fun _ => 1 / 2) m).2 i = (scalarIter m).2)
    ∧ (∀ i, ¬ i < n → (MeshWave.iter nb n (fun _ => 1 / 2) m).1 i = 0
      ∧ (MeshWave.iter nb n (fun _ => 1 / 2) m).2 i = 0) := by
  induction m with
  | zero =>
    exact ⟨fun i _ => ⟨rfl, rfl⟩, fun i _ => ⟨rfl, rfl⟩⟩
  | succ m ih =>
    obtain ⟨ihin, ihout⟩ := ih
    constructor
    · intro i hi
      obtain ⟨hp2, hp1⟩ := step_point nb n (fun _ => 1 / 2)
        (MeshWave.iter nb n (fun _ => 1 / 2) m).1 (MeshWave.iter nb n (fun _ => 1 / 2) m).2
        i hi
      rw [← iter_succ_eq] at hp2 hp1
      have havg : neighborAvg nb (MeshWave.iter nb n (fun _ => 1 / 2) m).1 i
          = (scalarIter m).1 := by
        rw [neighborAvg, if_pos (hne i hi)]
        exact mean_const (hne i hi) fun j hj => (ihin j (hsub i hi j hj)).1
      have hforce : MeshWave.force nb (fun _ => 1 / 2)
          (MeshWave.iter nb n (fun _ => 1 / 2) m).1 i
          = MeshWave.spring_k * (1 / 2 - (scalarIter m).1) := by
        rw [MeshWave.force, havg, (ihin i hi).1]
        ring
      have h2 : (MeshWave.iter nb n (fun _ => 1 / 2) (m + 1)).2 i = (scalarIter (m + 1)).2 := by
        rw [hp2, hforce, (ihin i hi).2, scalarIter_succ_eq]
        rfl
      refine ⟨?_, h2⟩
      rw [hp1, h2, (ihin i hi).1, scalarIter_succ_eq]
      rfl
    · intro i hi
      obtain ⟨hp2, hp1⟩ := step_point_frozen nb n (fun _ => 1 / 2)
        (MeshWave.iter nb n (fun _ => 1 / 2) m).1 (MeshWave.iter nb n (fun _ => 1 / 2) m).2
        i hi
      rw [← iter_succ_eq] at hp2 hp1
      rw [hp1, hp2]
      exact ⟨(ihout i hi).1, (ihout i hi).2⟩

theorem lyapV_contract (x : ℚ × ℚ) :
    lyapV (scalarStep x).1 (scalarStep x).2 ≤ (9 / 10) * lyapV x.1 x.2 := by
  obtain ⟨h, v⟩ := x
  show lyapV (h + MeshWave.damp * (v + MeshWave.spring_k * (1 / 2 - h)))
      (MeshWave.damp * (v + MeshWave.spring_k * (1 / 2 - h))) ≤ (9 / 10) * lyapV h v
  rw [damp_eq, spring_k_eq, lyapV, lyapV]
  nlinarith [sq_nonneg (580926 * (h - 1 / 2) + 19575 * v), sq_nonneg v,
    sq_nonneg (h - 1 / 2), sq_nonneg (h - 1 / 2 + v)]

theorem lyapV_lower (h v : ℚ) :
    (7197951 / 77440000) * (h - 1 / 2) ^ 2 ≤ lyapV h v := by
  rw [lyapV]
  nlinarith [sq_nonneg (63 * (h - 1 / 2) + 7744 * v)]

theorem lyapV_scalarIter (m : ℕ) :
    lyapV (scalarIter m).1 (scalarIter m).2 ≤ (9 / 10) ^ m * (93 / 4000) := by
  induction m with
  | zero =>
    norm_num [scalarIter, lyapV]
  | succ m ih =>
    rw [scalarIter_succ_eq]
    have hc := lyapV_contract (scalarIter m)
    have hmul : (9 / 10 : ℚ) * lyapV (scalarIter m).1 (scalarIter m).2
        ≤ (9 / 10) * ((9 / 10) ^ m * (93 / 4000)) := by nlinarith
    calc lyapV (scalarStep (scalarIter m)).1 (scalarStep (scalarIter m)).2
        ≤ (9 / 10) * lyapV (scalarIter m).1 (scalarIter m).2 := hc
    _ ≤ (9 / 10) * ((9 / 10) ^ m * (93 / 4000)) := hmul
    _ = (9 / 10) ^ (m + 1) * (93 / 4000) := by ring

theorem scalar_height_bound (m : ℕ) : |(scalarIter m).1| < 10 := by
  have hV := lyapV_scalarIter m
  have hpow : (9 / 10 : ℚ) ^ m ≤ 1 :=
    pow_le_one₀ (by norm_num) (by norm_num)
  have hlow := lyapV_lower (scalarIter m).1 (scalarIter m).2
  rw [abs_lt]
  constructor
  · nlinarith [sq_nonneg ((scalarIter m).1 - 1 / 2 + 51 / 100)]
  · nlinarith [sq_nonneg ((scalarIter m).1 - 1 / 2 - 51 / 100)]

theorem scalar_final_close : |(scalarIter 1000).1 - 1 / 2| < 1 / 1000 := by
  have hV := lyapV_scalarIter 1000
  have hlow := lyapV_lower (scalarIter 1000).1 (scalarIter 1000).2
  have hpow : (9 / 10 : ℚ) ^ 1000 * (93 / 4000)
      < (7197951 / 77440000) * (1 / 1000) ^ 2 := by
    have h7 : (9 / 10 : ℚ) ^ 1000 ≤ (9 / 10) ^ 200 := by
      apply pow_le_pow_of_le_one (by norm_num) (by norm_num)
      norm_num
    have h8 : (9 / 10 : ℚ) ^ 200 * (93 / 4000)
        < (7197951 / 77440000) * (1 / 1000) ^ 2 := by norm_num
    nlinarith
  rw [abs_lt]
  constructor
  · nlinarith [sq_nonneg ((scalarIter 1000).1 - 1 / 2 + 1 / 1000)]
  · nlinarith [sq_nonneg ((scalarIter 1000).1 - 1 / 2 - 1 / 1000)]

/-- C7: starting from heights = velocities = 0 with the constant target
1/2 for all points and the default coefficients spring_k = 0.12,
neighbor_k = 0.18, damp = 0.88, when every point has at least one
neighbor (all with valid indices) the state stays uniform, every height
satisfies |height| < 10 at every one of the first 1000 iterations, and
after 1000 iterations every height is within 1/1000 of the target 1/2. -/
theorem relaxation_stability (nb : ℕ → List ℕ) (n : ℕ)
    (hne : ∀ i < n, nb i ≠ []) (hsub : ∀ i < n, ∀ j ∈ nb i, j < n)
    (i : ℕ) (hi : i < n) :
    (∀ m ≤ 1000, |(MeshWave.iter nb n (fun _ => 1 / 2) m).1 i| < 10)
    ∧ |(MeshWave.iter nb n (fun _ => 1 / 2) 1000).1 i - 1 / 2| < 1 / 1000 := by
  constructor
  · intro m _
    rw [((iter_uniform nb n hne hsub m).1 i hi).1]
    exact scalar_height_bound m
  · rw [((iter_uniform nb n hne hsub 1000).1 i hi).1]
    exact scalar_final_close

theorem relaxation_stability_witness :
    (∀ i < 1, (fun _ => [0] : ℕ → List ℕ) i ≠ []) ∧
      (∀ i < 1, ∀ j ∈ (fun _ => [0] : ℕ → List ℕ) i, j < 1) ∧ 0 < 1 ∧
      ((∀ m ≤ 1000, |(MeshWave.iter (fun _ => [0]) 1 (fun _ => 1 / 2) m).1 0| < 10)
      ∧ |(MeshWave.iter (fun _ => [0]) 1 (fun _ => 1 / 2) 1000).1 0 - 1 / 2| < 1 / 1000) :=
  ⟨by decide, by decide, by decide,
    relaxation_stability (fun _ => [0]) 1 (by decide) (by decide) 0 (by decide)⟩

end Dust
